import Mathlib

/-!
Verification of the Noctura shield core: the incremental Merkle accumulator,
the nullifier set, and the Groth16 verifier front-end
(programs/noctura-shield/src/{merkle,utils,state,verifier,errors}.rs).

Byte arrays are modelled as lists of naturals (`List Nat`, each entry < 256
where it matters); the keccak hash and the alt_bn128 curve syscalls are
external collaborators, modelled as abstract function parameters.  Mutating
Rust methods (`&mut self`) are modelled as functions returning the result
together with the state after the call, so that an early error return is
visibly a call that leaves the state unchanged.
-/

namespace NocturaShield

/-- Error codes of the program (errors.rs). -/
inductive ShieldError where
  | Unauthorized
  | InvalidAmount
  | TreeFull
  | InvalidProof
  | NullifierUsed
  | CapacityExceeded
  | VerifierMissing
  | InvalidVerifierKey
deriving DecidableEq

/-- state.rs: `MAX_ROOT_HISTORY`. -/
def MAX_ROOT_HISTORY : Nat := 32

/-- state.rs: `MAX_NULLIFIERS`. -/
def MAX_NULLIFIERS : Nat := 256

/-- state.rs: `MerkleTreeAccount`, generic over the 32-byte hash content type. -/
structure MerkleTreeAccount (α : Type) where
  height : Nat
  current_index : Nat
  filled_subtrees : List α
  cached_roots : List α
deriving DecidableEq

/-- The canonical empty-subtree hash at a given level:
`zero[0]` is the 32-zero-byte leaf, `zero[l+1] = H(zero[l], zero[l])`. -/
def zeroHash (hash : α → α → α) (z0 : α) : Nat → α
  | 0 => z0
  | l + 1 => hash (zeroHash hash z0 l) (zeroHash hash z0 l)

/-- merkle.rs: `default_zero_hashes`. -/
def default_zero_hashes (hash : α → α → α) (z0 : α) (height : Nat) : List α :=
  (List.range height).map (zeroHash hash z0)

/-- merkle.rs: `MerkleTreeAccount::initialize` (primed name for gate hygiene). -/
def initialize' (hash : α → α → α) (z0 : α) (height : Nat) :
    Except ShieldError (MerkleTreeAccount α) :=
  if height > 0 then
    let fs := default_zero_hashes hash z0 height
    Except.ok ⟨height, 0, fs, [fs.getD (height - 1) z0]⟩
  else Except.error ShieldError.CapacityExceeded

/-- merkle.rs: `MerkleTreeAccount::push_root` — evict the oldest root when the
ring is at capacity, then append. -/
def push_root (t : MerkleTreeAccount α) (root : α) : MerkleTreeAccount α :=
  let roots :=
    if t.cached_roots.length ≥ MAX_ROOT_HISTORY then t.cached_roots.drop 1
    else t.cached_roots
  ⟨t.height, t.current_index, t.filled_subtrees, roots ++ [root]⟩

/-- The per-level loop body of `append_leaf`: iterate over levels `lvl`,
halving `idx` each level, threading the filled-subtree list and the running
hash.  First argument is the number of levels left. -/
def appendLoop (hash : α → α → α) (z0 : α) (zeros : List α) :
    Nat → Nat → Nat → List α → α → List α × α
  | 0, _, _, fs, cur => (fs, cur)
  | n + 1, lvl, idx, fs, cur =>
    if idx % 2 = 0 then
      appendLoop hash z0 zeros n (lvl + 1) (idx / 2) (fs.set lvl cur)
        (hash cur (zeros.getD lvl z0))
    else
      appendLoop hash z0 zeros n (lvl + 1) (idx / 2) fs
        (hash (fs.getD lvl z0) cur)

/-- merkle.rs: `MerkleTreeAccount::append_leaf`.  Returns the result of the
call and the state after the call. -/
def append_leaf (hash : α → α → α) (z0 : α) (t : MerkleTreeAccount α) (leaf : α) :
    Except ShieldError α × MerkleTreeAccount α :=
  let capacity := 2 ^ t.height
  if t.current_index < capacity then
    let zeros := default_zero_hashes hash z0 t.height
    let p := appendLoop hash z0 zeros t.height 0 t.current_index t.filled_subtrees leaf
    (Except.ok p.2, push_root ⟨t.height, t.current_index + 1, p.1, t.cached_roots⟩ p.2)
  else (Except.error ShieldError.TreeFull, t)

/-- merkle.rs: `MerkleTreeAccount::latest_root`; `z0` stands in for the value
read at `filled_subtrees[height-1]` when that index is out of range. -/
def latest_root (t : MerkleTreeAccount α) (z0 : α) : α :=
  match t.cached_roots.getLast? with
  | some r => r
  | none => t.filled_subtrees.getD (t.height - 1) z0

/-- merkle.rs: `MerkleTreeAccount::contains_root`. -/
def contains_root [DecidableEq α] (t : MerkleTreeAccount α) (root : α) : Bool :=
  t.cached_roots.any (fun r => decide (r = root))

/-- Sequentially append a list of leaves, stopping at the first error. -/
def appendMany (hash : α → α → α) (z0 : α) :
    MerkleTreeAccount α → List α → Except ShieldError (MerkleTreeAccount α)
  | t, [] => Except.ok t
  | t, l :: ls =>
    match append_leaf hash z0 t l with
    | (Except.ok _, t1) => appendMany hash z0 t1 ls
    | (Except.error e, _) => Except.error e

/-- state.rs: `NullifierSetAccount`. -/
structure NullifierSetAccount where
  nullifiers : List (List Nat)
deriving DecidableEq

/-- utils.rs: `track_nullifier`.  Returns the result of the call and the
state of the set after the call. -/
def track_nullifier (s : NullifierSetAccount) (n : List Nat) :
    Except ShieldError Unit × NullifierSetAccount :=
  if s.nullifiers.any (fun item => decide (item = n)) then
    (Except.error ShieldError.NullifierUsed, s)
  else if s.nullifiers.length ≥ MAX_NULLIFIERS then
    (Except.error ShieldError.CapacityExceeded, s)
  else (Except.ok (), ⟨s.nullifiers ++ [n]⟩)

/-- Tree states reachable by `initialize` followed by successful `append_leaf`
calls, together with the full history of produced roots (the initial
empty-tree root followed by the root of each insertion, oldest first). -/
inductive ReachableH (hash : α → α → α) (z0 : α) : MerkleTreeAccount α → List α → Prop where
  | init (H : Nat) (t : MerkleTreeAccount α) :
      initialize' hash z0 H = Except.ok t →
      ReachableH hash z0 t [zeroHash hash z0 (H - 1)]
  | step (t : MerkleTreeAccount α) (rs : List α) (leaf r : α) (t' : MerkleTreeAccount α) :
      ReachableH hash z0 t rs →
      append_leaf hash z0 t leaf = (Except.ok r, t') →
      ReachableH hash z0 t' (rs ++ [r])

/-! ### Verifier byte-level primitives (verifier.rs) -/

/-- The numeric value of a big-endian byte string. -/
def beNat : List Nat → Nat
  | [] => 0
  | b :: rest => b * 256 ^ rest.length + beNat rest

/-- verifier.rs: `FIELD_MODULUS_BE`, the BN128 base field modulus in
big-endian bytes. -/
def FIELD_MODULUS_BE : List Nat :=
  [0x30, 0x64, 0x4e, 0x72, 0xe1, 0x31, 0xa0, 0x29, 0xb8, 0x50, 0x45, 0xb6, 0x81, 0x81, 0x58, 0x5d,
   0x97, 0x81, 0x6a, 0x91, 0x68, 0x71, 0xca, 0x8d, 0x3c, 0x20, 0x8c, 0x16, 0xd8, 0x7c, 0xfd, 0x47]

/-- verifier.rs: `cmp_be` — lexicographic comparison of equal-length
big-endian byte strings, first differing byte decides. -/
def cmp_be : List Nat → List Nat → Ordering
  | a :: as, b :: bs => if a = b then cmp_be as bs else compare a b
  | _, _ => Ordering.eq

/-- verifier.rs: the borrow-propagating loop of `sub_assign_be`, processing
bytes least-significant (tail) first; returns the result bytes and the final
borrow. -/
def subBytesBE : List Nat → List Nat → List Nat × Nat
  | a :: as, b :: bs =>
    let p := subBytesBE as bs
    let d : Int := (a : Int) - (b : Int) - (p.2 : Int)
    if d < 0 then (((d + 256).toNat) :: p.1, 1) else (d.toNat :: p.1, 0)
  | _, _ => ([], 0)

/-- verifier.rs: `sub_assign_be` (byte-wise big-endian subtraction, borrow
discarded at the top as in the source). -/
def sub_assign_be (lhs rhs : List Nat) : List Nat :=
  (subBytesBE lhs rhs).1

/-- The fuel-indexed unfolding of the `while` loop in `reduce_mod_order_be`:
subtract the modulus while the value is not less than it. -/
def reduceAux : Nat → List Nat → List Nat
  | 0, v => v
  | fuel + 1, v =>
    if cmp_be v FIELD_MODULUS_BE = Ordering.lt then v
    else reduceAux fuel (sub_assign_be v FIELD_MODULUS_BE)

/-- verifier.rs: `reduce_mod_order_be`.  `beNat v + 1` rounds of fuel always
suffice for the loop to reach a value below the modulus. -/
def reduce_mod_order_be (v : List Nat) : List Nat :=
  reduceAux (beNat v + 1) v

/-- verifier.rs: `normalize_public_inputs`. -/
def normalize_public_inputs (inputs : List (List Nat)) : List (List Nat) :=
  inputs.map reduce_mod_order_be

/-- verifier.rs: `is_zero` (primed name for gate hygiene: the source calls it
`is_zero` as well). -/
def is_zero' (bytes : List Nat) : Bool :=
  bytes.all (fun b => decide (b = 0))

/-- verifier.rs: `negate_coordinate` — zero maps to zero, otherwise the
coordinate is subtracted from the field modulus. -/
def negate_coordinate (coord : List Nat) : List Nat :=
  if is_zero' coord then List.replicate 32 0
  else sub_assign_be FIELD_MODULUS_BE coord

/-- verifier.rs: `negate_g2` — keep the x components (bytes 0..64), negate
each of the two y components (bytes 64..96 and 96..128). -/
def negate_g2 (point : List Nat) : List Nat :=
  point.take 64 ++ negate_coordinate ((point.drop 64).take 32)
    ++ negate_coordinate (point.drop 96)

/-! ### Verifier key and proof decoding (verifier.rs) -/

/-- verifier.rs: `PackedVerifierKey`. -/
structure PackedVerifierKey where
  alpha_g1 : List Nat
  beta_g2 : List Nat
  gamma_g2 : List Nat
  delta_g2 : List Nat
  ic : List (List Nat)
deriving DecidableEq

/-- state.rs: `VerifierAccount`. -/
structure VerifierAccount where
  verifying_key : List Nat
deriving DecidableEq

/-- Borsh: read exactly `n` bytes, returning them and the remainder. -/
def readBytes (n : Nat) (bytes : List Nat) : Option (List Nat × List Nat) :=
  if n ≤ bytes.length then some (bytes.take n, bytes.drop n) else none

/-- Borsh: a `u32` length prefix, little-endian from 4 bytes. -/
def leNat : List Nat → Nat
  | [b0, b1, b2, b3] => b0 + b1 * 256 + b2 * 65536 + b3 * 16777216
  | _ => 0

/-- Borsh: read `n` consecutive 64-byte G1 points. -/
def readIc : Nat → List Nat → Option (List (List Nat) × List Nat)
  | 0, bytes => some ([], bytes)
  | n + 1, bytes =>
    match readBytes 64 bytes with
    | none => none
    | some (p, rest) =>
      match readIc n rest with
      | none => none
      | some (ps, rest2) => some (p :: ps, rest2)

/-- Borsh deserialization of `PackedVerifierKey` as done by
`try_from_slice`: fixed-size fields in order, a `u32`-length-prefixed `ic`
sequence, and the buffer must be consumed exactly. -/
def try_from_slice (bytes : List Nat) : Option PackedVerifierKey := do
  let (alpha, r1) ← readBytes 64 bytes
  let (beta, r2) ← readBytes 128 r1
  let (gamma, r3) ← readBytes 128 r2
  let (delta, r4) ← readBytes 128 r3
  let (lenb, r5) ← readBytes 4 r4
  let (ic, r6) ← readIc (leNat lenb) r5
  if r6 = [] then some ⟨alpha, beta, gamma, delta, ic⟩ else none

/-- verifier.rs: `load_verifier_key` — decode failure becomes
`InvalidVerifierKey`. -/
def load_verifier_key (bytes : List Nat) : Except ShieldError PackedVerifierKey :=
  match try_from_slice bytes with
  | some k => Except.ok k
  | none => Except.error ShieldError.InvalidVerifierKey

/-- verifier.rs: `Groth16Proof`. -/
structure Groth16Proof where
  a : List Nat
  b : List Nat
  c : List Nat
deriving DecidableEq

/-- verifier.rs: `Groth16Proof::from_bytes` — exactly 256 bytes,
`A(64) ++ B(128) ++ C(64)`. -/
def Groth16Proof.from_bytes (bytes : List Nat) : Except ShieldError Groth16Proof :=
  if bytes.length = 256 then
    Except.ok ⟨bytes.take 64, (bytes.drop 64).take 128, bytes.drop 192⟩
  else Except.error ShieldError.InvalidProof

/-! ### Curve backend interface (solana alt_bn128 syscalls) -/

/-- One call made to the external curve backend, with the raw input buffer
passed to the syscall. -/
inductive BackendCall where
  | mul (input : List Nat)
  | add (input : List Nat)
deriving DecidableEq

/-- An abstract curve-arithmetic backend: a syscall from an input buffer to
either a failure or an output buffer. -/
abbrev Backend := List Nat → Except Unit (List Nat)

/-- verifier.rs: `clear_high_bit` — mask bit 7 of the first byte. -/
def clear_high_bit (coord : List Nat) : List Nat :=
  match coord with
  | [] => []
  | b :: rest => (b &&& 0x7F) :: rest

/-- The success path of `read_g1_be`: both 32-byte halves with the high bit
of their leading byte cleared. -/
def maskG1 (src : List Nat) : List Nat :=
  clear_high_bit (src.take 32) ++ clear_high_bit (src.drop 32)

/-- verifier.rs: `read_g1_be` — demand a 64-byte buffer, clear high bits. -/
def read_g1_be (src : List Nat) : Except ShieldError (List Nat) :=
  if src.length = 64 then Except.ok (maskG1 src)
  else Except.error ShieldError.InvalidProof

/-- verifier.rs: `g1_scalar_mul` — build the 96-byte `point ++ scalar`
buffer, call the backend, map failure to `InvalidProof`, post-process with
`read_g1_be`.  Also reports the backend call made. -/
def g1_scalar_mul (mulB : Backend) (point scalar : List Nat) :
    Except ShieldError (List Nat) × List BackendCall :=
  ((match mulB (point ++ scalar) with
    | Except.error _ => Except.error ShieldError.InvalidProof
    | Except.ok raw => read_g1_be raw),
   [BackendCall.mul (point ++ scalar)])

/-- verifier.rs: `g1_add` — build the 128-byte `p ++ q` buffer, call the
backend, map failure to `InvalidProof`, post-process with `read_g1_be`.
Also reports the backend call made. -/
def g1_add (addB : Backend) (p q : List Nat) :
    Except ShieldError (List Nat) × List BackendCall :=
  ((match addB (p ++ q) with
    | Except.error _ => Except.error ShieldError.InvalidProof
    | Except.ok raw => read_g1_be raw),
   [BackendCall.add (p ++ q)])

/-- The loop of `accumulate_ic` over `scalars.zip(ic.drop 1)`: skip a term
when its scalar or its point is all-zero, otherwise multiply then add.
Returns the result and the backend calls made, in order. -/
def accLoop (mulB addB : Backend) :
    List Nat → List (List Nat × List Nat) → Except ShieldError (List Nat) × List BackendCall
  | acc, [] => (Except.ok acc, [])
  | acc, (scalar, point) :: rest =>
    if is_zero' scalar || is_zero' point then accLoop mulB addB acc rest
    else
      match g1_scalar_mul mulB point scalar with
      | (Except.error e, cs) => (Except.error e, cs)
      | (Except.ok mul, cs) =>
        match g1_add addB acc mul with
        | (Except.error e, cs2) => (Except.error e, cs ++ cs2)
        | (Except.ok acc2, cs2) =>
          let r := accLoop mulB addB acc2 rest
          (r.1, cs ++ cs2 ++ r.2)

/-- verifier.rs: `accumulate_ic` — start from `ic[0]` and fold the skip-aware
multiply-add loop over the scalar/point pairs. -/
def accumulate_ic (mulB addB : Backend) (ic scalars : List (List Nat)) :
    Except ShieldError (List Nat) × List BackendCall :=
  accLoop mulB addB (ic.getD 0 []) (scalars.zip (ic.drop 1))

/-- verifier.rs: `PAIRING_SUCCESS` — 32 bytes, all zero except the last = 1. -/
def PAIRING_SUCCESS : List Nat :=
  List.replicate 31 0 ++ [1]

/-- verifier.rs: `push_pair` — append a G1/G2 pair to the pairing buffer. -/
def push_pair (buffer g1 g2 : List Nat) : List Nat :=
  buffer ++ g1 ++ g2

/-- verifier.rs: `verify_groth16`, parameterized by the three backend
syscalls (multiplication, addition, pairing). -/
def verify_groth16 (mulB addB pairB : Backend) (verifier : VerifierAccount)
    (proof_bytes : List Nat) (public_inputs : List (List Nat)) :
    Except ShieldError Unit :=
  if verifier.verifying_key = [] then Except.error ShieldError.VerifierMissing
  else
    match load_verifier_key verifier.verifying_key with
    | Except.error e => Except.error e
    | Except.ok key =>
      if key.ic = [] then Except.error ShieldError.InvalidVerifierKey
      else if key.ic.length = public_inputs.length + 1 then
        match Groth16Proof.from_bytes proof_bytes with
        | Except.error e => Except.error e
        | Except.ok proof =>
          let scalars := normalize_public_inputs public_inputs
          match (accumulate_ic mulB addB key.ic scalars).1 with
          | Except.error e => Except.error e
          | Except.ok vk_x =>
            let beta_neg := negate_g2 key.beta_g2
            let gamma_neg := negate_g2 key.gamma_g2
            let delta_neg := negate_g2 key.delta_g2
            let pairing_input :=
              push_pair
                (push_pair (push_pair (push_pair [] proof.a proof.b) vk_x gamma_neg)
                  proof.c delta_neg)
                key.alpha_g1 beta_neg
            match pairB pairing_input with
            | Except.error _ => Except.error ShieldError.InvalidProof
            | Except.ok result =>
              if result = PAIRING_SUCCESS then Except.ok ()
              else Except.error ShieldError.InvalidProof
      else Except.error ShieldError.InvalidProof

/-- Project the input buffer of a multiplication backend call. -/
def mulCallInput : BackendCall → Option (List Nat)
  | BackendCall.mul i => some i
  | _ => none

/-- Project the input buffer of an addition backend call. -/
def addCallInput : BackendCall → Option (List Nat)
  | BackendCall.add i => some i
  | _ => none

/-- C1: on a freshly initialized tree of height 2, the four leaves `L0..L3`
appended in order produce, as the root returned by the 4th `append_leaf` and
as `latest_root`, `H(H(L0,L1), H(L2,L3))`; a 5th `append_leaf` fails with
`TreeFull` leaving the state (in particular `current_index = 4`) unchanged. -/
theorem claim_C1_height2_scenario {α : Type} (hash : α → α → α) (z0 L0 L1 L2 L3 L4 : α) :
    ∃ (t0 t1 t2 t3 t4 : MerkleTreeAccount α) (r1 r2 r3 : α),
      initialize' hash z0 2 = Except.ok t0 ∧
      append_leaf hash z0 t0 L0 = (Except.ok r1, t1) ∧
      append_leaf hash z0 t1 L1 = (Except.ok r2, t2) ∧
      append_leaf hash z0 t2 L2 = (Except.ok r3, t3) ∧
      append_leaf hash z0 t3 L3 = (Except.ok (hash (hash L0 L1) (hash L2 L3)), t4) ∧
      latest_root t4 z0 = hash (hash L0 L1) (hash L2 L3) ∧
      append_leaf hash z0 t4 L4 = (Except.error ShieldError.TreeFull, t4) ∧
      t4.current_index = 4 :=
  ⟨⟨2, 0, [z0, hash z0 z0], [hash z0 z0]⟩,
   ⟨2, 1, [L0, hash L0 z0],
     [hash z0 z0, hash (hash L0 z0) (hash z0 z0)]⟩,
   ⟨2, 2, [L0, hash L0 L1],
     [hash z0 z0, hash (hash L0 z0) (hash z0 z0), hash (hash L0 L1) (hash z0 z0)]⟩,
   ⟨2, 3, [L2, hash L0 L1],
     [hash z0 z0, hash (hash L0 z0) (hash z0 z0), hash (hash L0 L1) (hash z0 z0),
      hash (hash L0 L1) (hash L2 z0)]⟩,
   ⟨2, 4, [L2, hash L0 L1],
     [hash z0 z0, hash (hash L0 z0) (hash z0 z0), hash (hash L0 L1) (hash z0 z0),
      hash (hash L0 L1) (hash L2 z0), hash (hash L0 L1) (hash L2 L3)]⟩,
   hash (hash L0 z0) (hash z0 z0),
   hash (hash L0 L1) (hash z0 z0),
   hash (hash L0 L1) (hash L2 z0),
   by with_unfolding_all rfl, by with_unfolding_all rfl, by with_unfolding_all rfl,
   by with_unfolding_all rfl, by with_unfolding_all rfl, by with_unfolding_all rfl,
   by with_unfolding_all rfl, by with_unfolding_all rfl⟩

/-- C4: `track_nullifier` fails with `NullifierUsed` whenever the nullifier is
already present (even at capacity, since that check comes first); otherwise
fails with `CapacityExceeded` when the set holds at least `MAX_NULLIFIERS`
entries; otherwise appends exactly that nullifier at the end and succeeds. -/
theorem claim_C4_track_nullifier (s : NullifierSetAccount) (n : List Nat)
    (_hn : n.length = 32) :
    (n ∈ s.nullifiers → track_nullifier s n = (Except.error ShieldError.NullifierUsed, s)) ∧
    (n ∉ s.nullifiers → s.nullifiers.length ≥ MAX_NULLIFIERS →
      track_nullifier s n = (Except.error ShieldError.CapacityExceeded, s)) ∧
    (n ∉ s.nullifiers → s.nullifiers.length < MAX_NULLIFIERS →
      track_nullifier s n = (Except.ok (), ⟨s.nullifiers ++ [n]⟩)) := by
  have hmem : (s.nullifiers.any fun item => decide (item = n)) = true ↔ n ∈ s.nullifiers := by
    rw [List.any_eq_true]
    constructor
    · rintro ⟨x, hx, he⟩
      exact (of_decide_eq_true he) ▸ hx
    · intro h
      exact ⟨n, h, by simp⟩
  refine ⟨fun h => ?_, fun h1 h2 => ?_, fun h1 h2 => ?_⟩
  · unfold track_nullifier
    rw [if_pos (hmem.mpr h)]
  · unfold track_nullifier
    rw [if_neg (fun hc => h1 (hmem.mp hc)), if_pos h2]
  · unfold track_nullifier
    rw [if_neg (fun hc => h1 (hmem.mp hc)), if_neg (Nat.not_le.mpr h2)]

/-- Witness for C4: inserting a 32-byte nullifier into the empty set appends it. -/
theorem claim_C4_track_nullifier_witness :
    (List.replicate 32 0).length = 32 ∧
    track_nullifier ⟨[]⟩ (List.replicate 32 0) =
      (Except.ok (), ⟨[List.replicate 32 0]⟩) :=
  ⟨by decide,
   (claim_C4_track_nullifier ⟨[]⟩ (List.replicate 32 0) (by decide)).2.2
     (by simp) (by decide)⟩

/-- C5: failures are atomic — a full tree makes `append_leaf` return `TreeFull`
with the state (all fields) unchanged, and any `track_nullifier` failure leaves
the nullifier set unchanged.  The bound `current_index < 2^32` records that the
field is a `u32`. -/
theorem claim_C5_atomic_failures {α : Type} (hash : α → α → α) (z0 : α) :
    (∀ (t : MerkleTreeAccount α) (leaf : α),
        t.current_index < 2 ^ 32 → 2 ^ t.height ≤ t.current_index →
        append_leaf hash z0 t leaf = (Except.error ShieldError.TreeFull, t)) ∧
    (∀ (s : NullifierSetAccount) (n : List Nat) (e : ShieldError),
        (track_nullifier s n).1 = Except.error e → (track_nullifier s n).2 = s) := by
  constructor
  · intro t leaf _ hfull
    unfold append_leaf
    rw [if_neg (Nat.not_lt.mpr hfull)]
  · intro s n e h
    by_cases h1 : (s.nullifiers.any fun item => decide (item = n)) = true
    · simp [track_nullifier, h1]
    · by_cases h2 : s.nullifiers.length ≥ MAX_NULLIFIERS
      · simp [track_nullifier, h1, h2]
      · simp [track_nullifier, h1, h2] at h

/-- Witness for C5: a height-1 tree with `current_index = 2` rejects an append
unchanged, and a duplicate-nullifier failure leaves the set unchanged. -/
theorem claim_C5_atomic_failures_witness :
    append_leaf (fun a b : Nat => a + b) 0 ⟨1, 2, [0], [0]⟩ 7 =
      (Except.error ShieldError.TreeFull, ⟨1, 2, [0], [0]⟩) ∧
    (track_nullifier ⟨[[1]]⟩ [1]).2 = ⟨[[1]]⟩ :=
  ⟨(claim_C5_atomic_failures (fun a b : Nat => a + b) 0).1 ⟨1, 2, [0], [0]⟩ 7
      (by decide) (by decide),
   (claim_C5_atomic_failures (fun a b : Nat => a + b) 0).2 ⟨[[1]]⟩ [1]
      ShieldError.NullifierUsed (by with_unfolding_all rfl)⟩

/-- Unfolding of `append_leaf` on a non-full tree. -/
theorem append_leaf_eq_ok {α : Type} (hash : α → α → α) (z0 : α)
    (t : MerkleTreeAccount α) (leaf : α) (h : t.current_index < 2 ^ t.height) :
    append_leaf hash z0 t leaf =
      (Except.ok (appendLoop hash z0 (default_zero_hashes hash z0 t.height) t.height 0
          t.current_index t.filled_subtrees leaf).2,
       push_root
         ⟨t.height, t.current_index + 1,
          (appendLoop hash z0 (default_zero_hashes hash z0 t.height) t.height 0
            t.current_index t.filled_subtrees leaf).1,
          t.cached_roots⟩
         (appendLoop hash z0 (default_zero_hashes hash z0 t.height) t.height 0
            t.current_index t.filled_subtrees leaf).2) := by
  simp only [append_leaf]
  rw [if_pos h]

/-- Unfolding of `append_leaf` on a full tree. -/
theorem append_leaf_eq_err {α : Type} (hash : α → α → α) (z0 : α)
    (t : MerkleTreeAccount α) (leaf : α) (h : ¬ t.current_index < 2 ^ t.height) :
    append_leaf hash z0 t leaf = (Except.error ShieldError.TreeFull, t) := by
  simp only [append_leaf]
  rw [if_neg h]

/-- A successful `append_leaf` keeps the height, increments the index, and
pushes the returned root. -/
theorem append_leaf_ok {α : Type} (hash : α → α → α) (z0 : α)
    (t : MerkleTreeAccount α) (leaf : α) (h : t.current_index < 2 ^ t.height) :
    ∃ r t', append_leaf hash z0 t leaf = (Except.ok r, t') ∧
      t'.height = t.height ∧ t'.current_index = t.current_index + 1 ∧
      t'.cached_roots =
        (if t.cached_roots.length ≥ MAX_ROOT_HISTORY then t.cached_roots.drop 1
         else t.cached_roots) ++ [r] := by
  rw [append_leaf_eq_ok hash z0 t leaf h]
  exact ⟨_, _, rfl, rfl, rfl, rfl⟩

/-- `appendMany` succeeds whenever the tree has room for all the leaves,
keeping the height and advancing the index by the number of leaves. -/
theorem appendMany_ok {α : Type} (hash : α → α → α) (z0 : α) :
    ∀ (ls : List α) (t : MerkleTreeAccount α),
      t.current_index + ls.length ≤ 2 ^ t.height →
      ∃ t', appendMany hash z0 t ls = Except.ok t' ∧
        t'.height = t.height ∧ t'.current_index = t.current_index + ls.length := by
  intro ls
  induction ls with
  | nil =>
    intro t _
    exact ⟨t, rfl, rfl, by simp⟩
  | cons l ls ih =>
    intro t h
    have hlen : t.current_index + (l :: ls).length = t.current_index + 1 + ls.length := by
      simp [Nat.add_comm, Nat.add_assoc, Nat.add_left_comm]
    have hlt : t.current_index < 2 ^ t.height := by omega
    obtain ⟨r, t1, heq, hh, hi, _⟩ := append_leaf_ok hash z0 t l hlt
    obtain ⟨t', heq2, hh2, hi2⟩ := ih t1 (by rw [hi, hh]; omega)
    refine ⟨t', ?_, by rw [hh2, hh], by rw [hi2, hi]; simp; omega⟩
    simp only [appendMany, heq]
    exact heq2

/-- Unfolding of `initialize` for a positive height. -/
theorem initialize'_eq {α : Type} (hash : α → α → α) (z0 : α) (H : Nat) (h : 0 < H) :
    initialize' hash z0 H =
      Except.ok ⟨H, 0, default_zero_hashes hash z0 H,
        [(default_zero_hashes hash z0 H).getD (H - 1) z0]⟩ := by
  simp only [initialize']
  rw [if_pos h]

/-- C2: for every height `1 ≤ H ≤ 14`, a fresh tree accepts exactly `2^H`
sequential `append_leaf` calls (any leaves), reaching `current_index = 2^H`,
and the `(2^H + 1)`-th call fails with `TreeFull` (leaving the state as is). -/
theorem claim_C2_exact_capacity {α : Type} (hash : α → α → α) (z0 : α) (H : Nat)
    (h1 : 1 ≤ H) (_h14 : H ≤ 14) (leaves : List α) (hlen : leaves.length = 2 ^ H) :
    ∃ t0 tF, initialize' hash z0 H = Except.ok t0 ∧
      appendMany hash z0 t0 leaves = Except.ok tF ∧
      tF.current_index = 2 ^ H ∧
      ∀ extra, append_leaf hash z0 tF extra = (Except.error ShieldError.TreeFull, tF) := by
  have hinit := initialize'_eq hash z0 H h1
  obtain ⟨tF, hmany, hh, hi⟩ :=
    appendMany_ok hash z0 leaves
      ⟨H, 0, default_zero_hashes hash z0 H,
        [(default_zero_hashes hash z0 H).getD (H - 1) z0]⟩
      (by simpa using Nat.le_of_eq hlen)
  refine ⟨_, tF, hinit, hmany, by simpa [hlen] using hi, ?_⟩
  intro extra
  exact append_leaf_eq_err hash z0 tF extra
    (by rw [hi, hh]; simp [hlen])

/-- Witness for C2 at `H = 1` over natural-number leaves with an arbitrary
concrete hash. -/
theorem claim_C2_exact_capacity_witness :
    1 ≤ 1 ∧ 1 ≤ 14 ∧ ([5, 7] : List Nat).length = 2 ^ 1 ∧
    (∃ t0 tF, initialize' (fun a b : Nat => a + b) 0 1 = Except.ok t0 ∧
      appendMany (fun a b : Nat => a + b) 0 t0 [5, 7] = Except.ok tF ∧
      tF.current_index = 2 ^ 1 ∧
      ∀ extra, append_leaf (fun a b : Nat => a + b) 0 tF extra =
        (Except.error ShieldError.TreeFull, tF)) :=
  ⟨by decide, by decide, by decide,
   claim_C2_exact_capacity (fun a b : Nat => a + b) 0 1 (by decide) (by decide)
     [5, 7] (by decide)⟩

/-- At a positive height, the root installed by `initialize` is the
empty-subtree hash of the top level. -/
theorem default_zero_hashes_getD {α : Type} (hash : α → α → α) (z0 : α) {H : Nat}
    (h : 0 < H) :
    (default_zero_hashes hash z0 H).getD (H - 1) z0 = zeroHash hash z0 (H - 1) := by
  have hlt : H - 1 < H := by omega
  rw [default_zero_hashes, List.getD_eq_getElem?_getD, List.getElem?_map,
    List.getElem?_range hlt]
  rfl

/-- `push_root` keeps the current index. -/
theorem push_root_index {α : Type} (t : MerkleTreeAccount α) (a : α) :
    (push_root t a).current_index = t.current_index := rfl

/-- `push_root` drops the oldest entry exactly when at capacity, then
appends. -/
theorem push_root_cached {α : Type} (t : MerkleTreeAccount α) (a : α) :
    (push_root t a).cached_roots =
      (if t.cached_roots.length ≥ MAX_ROOT_HISTORY then t.cached_roots.drop 1
       else t.cached_roots) ++ [a] := rfl

/-- Pushing onto the last-`MAX_ROOT_HISTORY` suffix of a history yields the
last-`MAX_ROOT_HISTORY` suffix of the extended history. -/
theorem push_suffix {α : Type} (rs : List α) (a : α) :
    (if (rs.drop (rs.length - MAX_ROOT_HISTORY)).length ≥ MAX_ROOT_HISTORY
     then (rs.drop (rs.length - MAX_ROOT_HISTORY)).drop 1
     else rs.drop (rs.length - MAX_ROOT_HISTORY)) ++ [a]
    = (rs ++ [a]).drop ((rs ++ [a]).length - MAX_ROOT_HISTORY) := by
  have hlen : (rs ++ [a]).length = rs.length + 1 := by simp
  rw [hlen, List.length_drop]
  rcases Nat.lt_or_ge rs.length MAX_ROOT_HISTORY with hcase | hcase
  · rw [if_neg (by omega)]
    have h1 : rs.length - MAX_ROOT_HISTORY = 0 := by omega
    have h2 : rs.length + 1 - MAX_ROOT_HISTORY = 0 := by omega
    simp [h1, h2]
  · have hmaxpos : 0 < MAX_ROOT_HISTORY := by decide
    rw [if_pos (by omega)]
    rw [List.drop_drop]
    rw [List.drop_append_of_le_length (by omega)]
    have h3 : rs.length - MAX_ROOT_HISTORY + 1 = rs.length + 1 - MAX_ROOT_HISTORY := by
      omega
    rw [h3]

/-- The ring invariant carried by every reachable state: the cached roots are
exactly the last (at most `MAX_ROOT_HISTORY`) entries of the root history,
whose length is `current_index + 1`. -/
theorem reachableH_spec {α : Type} (hash : α → α → α) (z0 : α)
    {t : MerkleTreeAccount α} {rs : List α} (h : ReachableH hash z0 t rs) :
    rs ≠ [] ∧ rs.length = t.current_index + 1 ∧
    t.cached_roots = rs.drop (rs.length - MAX_ROOT_HISTORY) := by
  induction h with
  | init H t h0 =>
    have hH : 0 < H := by
      by_contra hc
      have h0' : H = 0 := by omega
      subst h0'
      simp [initialize'] at h0
    rw [initialize'_eq hash z0 H hH] at h0
    have ht := (Except.ok.inj h0).symm
    subst ht
    refine ⟨by simp, by simp, ?_⟩
    show [(default_zero_hashes hash z0 H).getD (H - 1) z0] = _
    rw [default_zero_hashes_getD hash z0 hH]
    simp [MAX_ROOT_HISTORY]
  | step t rs leaf r t' _ heq ih =>
    obtain ⟨hne, hlen, hcr⟩ := ih
    have hlt : t.current_index < 2 ^ t.height := by
      by_contra hc
      rw [append_leaf_eq_err hash z0 t leaf hc] at heq
      exact absurd (congrArg Prod.fst heq) (by simp)
    rw [append_leaf_eq_ok hash z0 t leaf hlt, Prod.mk.injEq] at heq
    obtain ⟨h1, h2⟩ := heq
    have hr := Except.ok.inj h1
    subst hr
    subst h2
    refine ⟨by simp, by simp [push_root_index, hlen], ?_⟩
    rw [push_root_cached]
    simp only [hcr]
    exact push_suffix rs _

/-- A reachable root history is never empty, so its cached tail suffix is
never empty either. -/
theorem drop_hist_ne_nil {α : Type} {rs : List α} (hne : rs ≠ []) :
    rs.drop (rs.length - MAX_ROOT_HISTORY) ≠ [] := by
  apply List.ne_nil_of_length_pos
  rw [List.length_drop]
  have := List.length_pos_of_ne_nil hne
  have : MAX_ROOT_HISTORY > 0 := by decide
  omega

/-- C9: in every state reachable by `initialize` plus successful appends, the
cached-root ring is non-empty, holds at most 32 roots, ends with the most
recent root (the initial `zero[height-1]` right after `initialize`), is
exactly the last at-most-32 entries of the root history (so a push at
capacity evicts exactly the oldest entry), and `contains_root` accepts the
root of each of the last `min 32 current_index` insertions. -/
theorem claim_C9_root_ring {α : Type} [DecidableEq α] (hash : α → α → α) (z0 : α)
    {t : MerkleTreeAccount α} {rs : List α} (h : ReachableH hash z0 t rs) :
    t.cached_roots ≠ [] ∧
    t.cached_roots.length ≤ MAX_ROOT_HISTORY ∧
    t.cached_roots.getLast? = rs.getLast? ∧
    t.cached_roots = rs.drop (rs.length - MAX_ROOT_HISTORY) ∧
    rs.length = t.current_index + 1 ∧
    (∀ root, root ∈ rs.drop (rs.length - min MAX_ROOT_HISTORY t.current_index) →
      contains_root t root = true) := by
  obtain ⟨hne, hlen, hcr⟩ := reachableH_spec hash z0 h
  refine ⟨hcr ▸ drop_hist_ne_nil hne, ?_, ?_, hcr, hlen, ?_⟩
  · rw [hcr, List.length_drop]
    omega
  · conv_rhs => rw [← List.take_append_drop (rs.length - MAX_ROOT_HISTORY) rs]
    rw [hcr, List.getLast?_append_of_ne_nil _ (drop_hist_ne_nil hne)]
  · intro root hmem
    have hmin : rs.length - MAX_ROOT_HISTORY ≤ rs.length - min MAX_ROOT_HISTORY t.current_index := by
      have : min MAX_ROOT_HISTORY t.current_index ≤ MAX_ROOT_HISTORY := Nat.min_le_left _ _
      omega
    have hmem2 : root ∈ rs.drop (rs.length - MAX_ROOT_HISTORY) := by
      have hdecomp : rs.drop (rs.length - min MAX_ROOT_HISTORY t.current_index) =
          (rs.drop (rs.length - MAX_ROOT_HISTORY)).drop
            (rs.length - min MAX_ROOT_HISTORY t.current_index -
              (rs.length - MAX_ROOT_HISTORY)) := by
        rw [List.drop_drop]
        congr 1
        omega
      rw [hdecomp] at hmem
      exact List.mem_of_mem_drop hmem
    rw [contains_root, List.any_eq_true]
    exact ⟨root, hcr ▸ hmem2, by simp⟩

/-- Witness for C9: the freshly initialized height-1 tree over `Nat`. -/
theorem claim_C9_root_ring_witness :
    (⟨1, 0, [0], [0]⟩ : MerkleTreeAccount Nat).cached_roots ≠ [] ∧
    (⟨1, 0, [0], [0]⟩ : MerkleTreeAccount Nat).cached_roots.length ≤ MAX_ROOT_HISTORY ∧
    (⟨1, 0, [0], [0]⟩ : MerkleTreeAccount Nat).cached_roots.getLast? =
      [zeroHash (fun a b : Nat => a + b) 0 (1 - 1)].getLast? ∧
    (⟨1, 0, [0], [0]⟩ : MerkleTreeAccount Nat).cached_roots =
      [zeroHash (fun a b : Nat => a + b) 0 (1 - 1)].drop
        ([zeroHash (fun a b : Nat => a + b) 0 (1 - 1)].length - MAX_ROOT_HISTORY) ∧
    [zeroHash (fun a b : Nat => a + b) 0 (1 - 1)].length =
      (⟨1, 0, [0], [0]⟩ : MerkleTreeAccount Nat).current_index + 1 ∧
    (∀ root, root ∈ [zeroHash (fun a b : Nat => a + b) 0 (1 - 1)].drop
        ([zeroHash (fun a b : Nat => a + b) 0 (1 - 1)].length -
          min MAX_ROOT_HISTORY (⟨1, 0, [0], [0]⟩ : MerkleTreeAccount Nat).current_index) →
      contains_root (⟨1, 0, [0], [0]⟩ : MerkleTreeAccount Nat) root = true) :=
  claim_C9_root_ring (fun a b : Nat => a + b) 0
    (ReachableH.init 1 ⟨1, 0, [0], [0]⟩ (by with_unfolding_all rfl))

/-- C10: `latest_root` is total — with a well-formed height and subtree list
it returns the last cached root when the ring is non-empty and falls back to
the in-bounds read of `filled_subtrees[height-1]` when the ring is empty; on
reachable states the ring is non-empty, so the fallback is unreachable. -/
theorem claim_C10_latest_root_total {α : Type} (hash : α → α → α) (z0 : α)
    (t : MerkleTreeAccount α) (h1 : 1 ≤ t.height)
    (h2 : t.filled_subtrees.length = t.height) :
    (∀ hne : t.cached_roots ≠ [], latest_root t z0 = t.cached_roots.getLast hne) ∧
    (t.cached_roots = [] →
      ∃ hlt : t.height - 1 < t.filled_subtrees.length,
        latest_root t z0 = t.filled_subtrees.get ⟨t.height - 1, hlt⟩) ∧
    (∀ rs, ReachableH hash z0 t rs → t.cached_roots ≠ []) := by
  refine ⟨?_, ?_, ?_⟩
  · intro hne
    rw [latest_root, List.getLast?_eq_getLast_of_ne_nil hne]
  · intro hempty
    have hlt : t.height - 1 < t.filled_subtrees.length := by omega
    refine ⟨hlt, ?_⟩
    rw [latest_root, hempty]
    simp only [List.getLast?_nil]
    rw [List.getD_eq_getElem _ z0 hlt]
    simp
  · intro rs hre
    obtain ⟨hne, _, hcr⟩ := reachableH_spec hash z0 hre
    exact hcr ▸ drop_hist_ne_nil hne

/-- Witness for C10: a height-1 tree with an empty root ring exercises the
fallback branch. -/
theorem claim_C10_latest_root_total_witness :
    (∀ hne : (⟨1, 0, [5], []⟩ : MerkleTreeAccount Nat).cached_roots ≠ [],
      latest_root (⟨1, 0, [5], []⟩ : MerkleTreeAccount Nat) 0 =
        (⟨1, 0, [5], []⟩ : MerkleTreeAccount Nat).cached_roots.getLast hne) ∧
    ((⟨1, 0, [5], []⟩ : MerkleTreeAccount Nat).cached_roots = [] →
      ∃ hlt : (⟨1, 0, [5], []⟩ : MerkleTreeAccount Nat).height - 1 <
          (⟨1, 0, [5], []⟩ : MerkleTreeAccount Nat).filled_subtrees.length,
        latest_root (⟨1, 0, [5], []⟩ : MerkleTreeAccount Nat) 0 =
          (⟨1, 0, [5], []⟩ : MerkleTreeAccount Nat).filled_subtrees.get
            ⟨(⟨1, 0, [5], []⟩ : MerkleTreeAccount Nat).height - 1, hlt⟩) ∧
    (∀ rs, ReachableH (fun a b : Nat => a + b) 0
        (⟨1, 0, [5], []⟩ : MerkleTreeAccount Nat) rs →
      (⟨1, 0, [5], []⟩ : MerkleTreeAccount Nat).cached_roots ≠ []) :=
  claim_C10_latest_root_total (fun a b : Nat => a + b) 0 ⟨1, 0, [5], []⟩
    (by decide) (by decide)

/-! ### Big-endian byte arithmetic -/

/-- Value of a cons cell. -/
theorem beNat_cons (b : Nat) (rest : List Nat) :
    beNat (b :: rest) = b * 256 ^ rest.length + beNat rest := rfl

/-- A valid byte string's value is below `256 ^ length`. -/
theorem beNat_lt (l : List Nat) (h : ∀ x ∈ l, x < 256) :
    beNat l < 256 ^ l.length := by
  induction l with
  | nil => simp [beNat]
  | cons b rest ih =>
    have hb : b < 256 := h b (by simp)
    have hr := ih (fun x hx => h x (by simp [hx]))
    rw [beNat_cons, List.length_cons, pow_succ]
    calc b * 256 ^ rest.length + beNat rest
        < b * 256 ^ rest.length + 256 ^ rest.length := by omega
      _ = (b + 1) * 256 ^ rest.length := by ring
      _ ≤ 256 * 256 ^ rest.length := Nat.mul_le_mul_right _ (by omega)
      _ = 256 ^ rest.length * 256 := by ring

/-- `cmp_be` on equal-length valid byte strings is numeric comparison. -/
theorem cmp_be_eq (as : List Nat) : ∀ (bs : List Nat), as.length = bs.length →
    (∀ x ∈ as, x < 256) → (∀ x ∈ bs, x < 256) →
    cmp_be as bs = compare (beNat as) (beNat bs) := by
  induction as with
  | nil =>
    intro bs hlen _ _
    have hb : bs = [] := List.eq_nil_of_length_eq_zero hlen.symm
    subst hb
    show Ordering.eq = compare (beNat []) (beNat [])
    exact (Nat.compare_eq_eq.mpr rfl).symm
  | cons a as ih =>
    intro bs hlen ha hb
    cases bs with
    | nil => simp at hlen
    | cons b bs' =>
      have hlen' : as.length = bs'.length := by simpa using hlen
      have ha' : ∀ x ∈ as, x < 256 := fun x hx => ha x (by simp [hx])
      have hb' : ∀ x ∈ bs', x < 256 := fun x hx => hb x (by simp [hx])
      have hca := beNat_lt as ha'
      have hcb := beNat_lt bs' hb'
      rw [show cmp_be (a :: as) (b :: bs')
          = if a = b then cmp_be as bs' else compare a b from rfl]
      by_cases hab : a = b
      · subst hab
        rw [if_pos rfl, ih bs' hlen' ha' hb', beNat_cons, beNat_cons, hlen']
        rcases Nat.lt_trichotomy (beNat as) (beNat bs') with h | h | h
        · rw [Nat.compare_eq_lt.mpr h, Nat.compare_eq_lt.mpr (by omega)]
        · rw [h]
          rw [Nat.compare_eq_eq.mpr rfl, Nat.compare_eq_eq.mpr rfl]
        · rw [Nat.compare_eq_gt.mpr h, Nat.compare_eq_gt.mpr (by omega)]
      · rw [if_neg hab, beNat_cons, beNat_cons, hlen']
        rw [hlen'] at hca
        rcases Nat.lt_trichotomy a b with h | h | h
        · rw [Nat.compare_eq_lt.mpr h, Nat.compare_eq_lt.mpr ?_]
          calc a * 256 ^ bs'.length + beNat as
              < (a + 1) * 256 ^ bs'.length := by rw [Nat.succ_mul]; omega
            _ ≤ b * 256 ^ bs'.length := Nat.mul_le_mul_right _ (by omega)
            _ ≤ b * 256 ^ bs'.length + beNat bs' := Nat.le_add_right _ _
        · exact absurd h hab
        · rw [Nat.compare_eq_gt.mpr h, Nat.compare_eq_gt.mpr ?_]
          calc b * 256 ^ bs'.length + beNat bs'
              < (b + 1) * 256 ^ bs'.length := by rw [Nat.succ_mul]; omega
            _ ≤ a * 256 ^ bs'.length := Nat.mul_le_mul_right _ (by omega)
            _ ≤ a * 256 ^ bs'.length + beNat as := Nat.le_add_right _ _

/-- Full specification of the borrow-propagating subtraction loop. -/
theorem subBytesBE_spec (as : List Nat) : ∀ (bs : List Nat), as.length = bs.length →
    (∀ x ∈ as, x < 256) → (∀ x ∈ bs, x < 256) →
    (subBytesBE as bs).1.length = as.length ∧
    (∀ x ∈ (subBytesBE as bs).1, x < 256) ∧
    (subBytesBE as bs).2 = (if beNat as < beNat bs then 1 else 0) ∧
    ((beNat (subBytesBE as bs).1 : Int) =
      (beNat as : Int) - beNat bs + (subBytesBE as bs).2 * 256 ^ as.length) := by
  induction as with
  | nil =>
    intro bs hlen _ _
    have hb : bs = [] := List.eq_nil_of_length_eq_zero hlen.symm
    subst hb
    simp [subBytesBE, beNat]
  | cons a as ih =>
    intro bs hlen ha hb
    cases bs with
    | nil => simp at hlen
    | cons b bs' =>
      have hlen' : as.length = bs'.length := by simpa using hlen
      have ha' : ∀ x ∈ as, x < 256 := fun x hx => ha x (by simp [hx])
      have hb' : ∀ x ∈ bs', x < 256 := fun x hx => hb x (by simp [hx])
      have haa : a < 256 := ha a (by simp)
      have hbb : b < 256 := hb b (by simp)
      obtain ⟨ihlen, ihvalid, ihborrow, ihval⟩ := ih bs' hlen' ha' hb'
      have hborrow01 : (subBytesBE as bs').2 = 0 ∨ (subBytesBE as bs').2 = 1 := by
        rw [ihborrow]; split <;> simp
      have hreslt : beNat (subBytesBE as bs').1 < 256 ^ as.length := by
        have := beNat_lt (subBytesBE as bs').1 ihvalid
        rwa [ihlen] at this
      set p := subBytesBE as bs' with hp
      have hXlt : beNat as < 256 ^ as.length := beNat_lt as ha'
      have hYlt : beNat bs' < 256 ^ bs'.length := beNat_lt bs' hb'
      have hstep : subBytesBE (a :: as) (b :: bs') =
          (if ((a : Int) - b - p.2) < 0
           then (((a : Int) - b - p.2 + 256).toNat :: p.1, 1)
           else (((a : Int) - b - p.2).toNat :: p.1, 0)) := rfl
      by_cases hd : ((a : Int) - b - p.2) < 0
      · rw [hstep, if_pos hd]
        have hd0 : (0 : Int) ≤ (a : Int) - b - p.2 + 256 := by
          rcases hborrow01 with h0 | h0 <;> rw [h0] <;> push_cast <;> omega
        have hdlt : (a : Int) - b - p.2 + 256 < 256 := by omega
        constructor
        · simp [ihlen]
        constructor
        · intro x hx
          rcases List.mem_cons.mp hx with hx0 | hx1
          · subst hx0; omega
          · exact ihvalid x hx1
        constructor
        · -- borrow out is 1 ↔ value comparison
          have hlt : beNat (a :: as) < beNat (b :: bs') := by
            rw [beNat_cons, beNat_cons, hlen']
            rcases hborrow01 with h0 | h0
            · -- borrow-in 0 ⟹ a < b
              rw [h0] at hd
              have hab : a < b := by omega
              calc a * 256 ^ bs'.length + beNat as
                  < (a + 1) * 256 ^ bs'.length := by rw [Nat.succ_mul]; rw [hlen'] at hXlt; omega
                _ ≤ b * 256 ^ bs'.length := Nat.mul_le_mul_right _ (by omega)
                _ ≤ b * 256 ^ bs'.length + beNat bs' := Nat.le_add_right _ _
            · -- borrow-in 1 ⟹ a ≤ b, and beNat as < beNat bs'
              rw [h0] at hd
              have hab : a ≤ b := by omega
              have hXY : beNat as < beNat bs' := by
                rw [ihborrow] at h0
                by_contra hc
                rw [if_neg (by omega)] at h0
                exact absurd h0 (by decide)
              rcases Nat.lt_or_ge a b with hab' | hab'
              · calc a * 256 ^ bs'.length + beNat as
                    < (a + 1) * 256 ^ bs'.length := by rw [Nat.succ_mul]; rw [hlen'] at hXlt; omega
                  _ ≤ b * 256 ^ bs'.length := Nat.mul_le_mul_right _ (by omega)
                  _ ≤ b * 256 ^ bs'.length + beNat bs' := Nat.le_add_right _ _
              · have hab2 : a = b := by omega
                subst hab2
                omega
          rw [if_pos hlt]
        · -- value equation with borrow 1
          show (beNat (((a : Int) - b - p.2 + 256).toNat :: p.1) : Int)
              = (beNat (a :: as) : Int) - beNat (b :: bs') + 1 * 256 ^ (a :: as).length
          rw [beNat_cons ((((a : Int) - b - p.2 + 256).toNat)) p.1, beNat_cons, beNat_cons]
          push_cast [ihlen, hlen', List.length_cons, Int.toNat_of_nonneg hd0]
          rw [show ((beNat p.1 : Int)) = (beNat as : Int) - beNat bs' + p.2 * 256 ^ as.length
              from by exact_mod_cast ihval]
          push_cast [hlen']
          ring
      · rw [hstep, if_neg hd]
        have hd0 : (0 : Int) ≤ (a : Int) - b - p.2 := by omega
        have hdlt : (a : Int) - b - p.2 < 256 := by
          rcases hborrow01 with h0 | h0 <;> rw [h0] <;> push_cast <;> omega
        constructor
        · simp [ihlen]
        constructor
        · intro x hx
          rcases List.mem_cons.mp hx with hx0 | hx1
          · subst hx0; omega
          · exact ihvalid x hx1
        constructor
        · -- borrow out is 0 ↔ no underflow
          have hge : ¬ beNat (a :: as) < beNat (b :: bs') := by
            rw [beNat_cons, beNat_cons, hlen']
            rcases hborrow01 with h0 | h0
            · -- borrow-in 0 ⟹ a ≥ b
              rw [h0] at hd
              have hab : b ≤ a := by omega
              rcases Nat.lt_or_ge b a with hab' | hab'
              · intro hcon
                have : b * 256 ^ bs'.length + beNat bs'
                    < (b + 1) * 256 ^ bs'.length := by
                  rw [Nat.succ_mul]; omega
                have h2 : (b + 1) * 256 ^ bs'.length ≤ a * 256 ^ bs'.length :=
                  Nat.mul_le_mul_right _ (by omega)
                omega
              · have hab2 : b = a := by omega
                subst hab2
                have hXY : beNat bs' ≤ beNat as := by
                  rw [ihborrow] at h0
                  by_contra hc
                  rw [if_pos (by omega)] at h0
                  exact absurd h0 (by decide)
                omega
            · -- borrow-in 1 ⟹ a > b
              rw [h0] at hd
              have hab : b < a := by omega
              intro hcon
              have h1 : b * 256 ^ bs'.length + beNat bs'
                  < (b + 1) * 256 ^ bs'.length := by
                rw [Nat.succ_mul]; omega
              have h2 : (b + 1) * 256 ^ bs'.length ≤ a * 256 ^ bs'.length :=
                Nat.mul_le_mul_right _ (by omega)
              omega
          rw [if_neg hge]
        · -- value equation with borrow 0
          show (beNat (((a : Int) - b - p.2).toNat :: p.1) : Int)
              = (beNat (a :: as) : Int) - beNat (b :: bs') + 0 * 256 ^ (a :: as).length
          rw [beNat_cons (((a : Int) - b - p.2).toNat) p.1, beNat_cons, beNat_cons]
          push_cast [ihlen, hlen', List.length_cons, Int.toNat_of_nonneg hd0]
          rw [show ((beNat p.1 : Int)) = (beNat as : Int) - beNat bs' + p.2 * 256 ^ as.length
              from by exact_mod_cast ihval]
          push_cast [hlen']
          ring

/-- `sub_assign_be` on valid equal-length strings with no underflow computes
the numeric difference, staying valid and preserving length. -/
theorem sub_assign_be_spec (as bs : List Nat) (hlen : as.length = bs.length)
    (ha : ∀ x ∈ as, x < 256) (hb : ∀ x ∈ bs, x < 256)
    (hge : beNat bs ≤ beNat as) :
    (sub_assign_be as bs).length = as.length ∧
    (∀ x ∈ sub_assign_be as bs, x < 256) ∧
    beNat (sub_assign_be as bs) = beNat as - beNat bs := by
  obtain ⟨h1, h2, h3, h4⟩ := subBytesBE_spec as bs hlen ha hb
  refine ⟨h1, h2, ?_⟩
  rw [h3, if_neg (by omega)] at h4
  have h5 : (beNat (subBytesBE as bs).1 : Int) = (beNat as : Int) - beNat bs := by
    rw [h4]; ring
  rw [sub_assign_be]
  omega

/-- Base-256 strings of equal length with equal value are equal. -/
theorem beNat_inj (as : List Nat) : ∀ bs : List Nat, as.length = bs.length →
    (∀ x ∈ as, x < 256) → (∀ x ∈ bs, x < 256) → beNat as = beNat bs → as = bs := by
  induction as with
  | nil =>
    intro bs hlen _ _ _
    exact (List.eq_nil_of_length_eq_zero hlen.symm).symm
  | cons a as ih =>
    intro bs hlen ha hb heq
    cases bs with
    | nil => simp at hlen
    | cons b bs' =>
      have hlen' : as.length = bs'.length := by simpa using hlen
      have ha' : ∀ x ∈ as, x < 256 := fun x hx => ha x (by simp [hx])
      have hb' : ∀ x ∈ bs', x < 256 := fun x hx => hb x (by simp [hx])
      have hXlt := beNat_lt as ha'
      have hYlt := beNat_lt bs' hb'
      rw [beNat_cons, beNat_cons, hlen'] at heq
      rw [hlen'] at hXlt
      have hmono : ∀ u v : Nat, u < v →
          u * 256 ^ bs'.length + beNat as < v * 256 ^ bs'.length + beNat bs' := by
        intro u v huv
        calc u * 256 ^ bs'.length + beNat as
            < (u + 1) * 256 ^ bs'.length := by rw [Nat.succ_mul]; omega
          _ ≤ v * 256 ^ bs'.length := Nat.mul_le_mul_right _ (by omega)
          _ ≤ v * 256 ^ bs'.length + beNat bs' := Nat.le_add_right _ _
      have hmono' : ∀ u v : Nat, u < v →
          u * 256 ^ bs'.length + beNat bs' < v * 256 ^ bs'.length + beNat as := by
        intro u v huv
        calc u * 256 ^ bs'.length + beNat bs'
            < (u + 1) * 256 ^ bs'.length := by rw [Nat.succ_mul]; omega
          _ ≤ v * 256 ^ bs'.length := Nat.mul_le_mul_right _ (by omega)
          _ ≤ v * 256 ^ bs'.length + beNat as := Nat.le_add_right _ _
      have hab : a = b := by
        rcases Nat.lt_trichotomy a b with h | h | h
        · exact absurd heq (Nat.ne_of_lt (hmono a b h))
        · exact h
        · exact absurd heq.symm (Nat.ne_of_lt (hmono' b a h))
      subst hab
      have hrest : beNat as = beNat bs' := by omega
      rw [ih bs' hlen' ha' hb' hrest]

/-- A byte string has value zero exactly when every byte is zero. -/
theorem beNat_eq_zero_iff (l : List Nat) : beNat l = 0 ↔ ∀ x ∈ l, x = 0 := by
  induction l with
  | nil => simp [beNat]
  | cons b rest ih =>
    have hc : 0 < 256 ^ rest.length := by positivity
    rw [beNat_cons]
    constructor
    · intro h
      have hb0 : b = 0 := by
        by_contra hb
        have := Nat.le_mul_of_pos_left (256 ^ rest.length) (show 0 < b by omega)
        omega
      have hr0 : beNat rest = 0 := by omega
      intro x hx
      rcases List.mem_cons.mp hx with h1 | h1
      · rw [h1]; exact hb0
      · exact ih.mp hr0 x h1
    · intro h
      have hb0 : b = 0 := h b (by simp)
      have hr0 : beNat rest = 0 := ih.mpr (fun x hx => h x (by simp [hx]))
      simp [hb0, hr0]

/-- `is_zero` tests exactly for value zero. -/
theorem is_zero'_iff (l : List Nat) : is_zero' l = true ↔ beNat l = 0 := by
  rw [is_zero', List.all_eq_true, beNat_eq_zero_iff]
  simp

/-- The numeric value of the stored modulus bytes. -/
theorem beNat_modulus :
    beNat FIELD_MODULUS_BE =
      21888242871839275222246405745257275088696311157297823662689037894645226208583 := by
  decide

/-- The modulus byte string is 32 valid bytes. -/
theorem modulus_valid :
    FIELD_MODULUS_BE.length = 32 ∧ ∀ x ∈ FIELD_MODULUS_BE, x < 256 := by
  decide

/-- The fuel-indexed reduction loop computes the remainder modulo the field
modulus whenever the fuel dominates the value. -/
theorem reduceAux_spec : ∀ (fuel : Nat) (v : List Nat),
    v.length = 32 → (∀ x ∈ v, x < 256) →
    beNat v < fuel * beNat FIELD_MODULUS_BE + beNat FIELD_MODULUS_BE →
    (reduceAux fuel v).length = 32 ∧
    (∀ x ∈ reduceAux fuel v, x < 256) ∧
    beNat (reduceAux fuel v) = beNat v % beNat FIELD_MODULUS_BE ∧
    (beNat v < beNat FIELD_MODULUS_BE → reduceAux fuel v = v) := by
  intro fuel
  induction fuel with
  | zero =>
    intro v hlen hv hfuel
    rw [show reduceAux 0 v = v from rfl]
    have hvP : beNat v < beNat FIELD_MODULUS_BE := by simpa using hfuel
    exact ⟨hlen, hv, (Nat.mod_eq_of_lt hvP).symm, fun _ => rfl⟩
  | succ fuel ih =>
    intro v hlen hv hfuel
    have hcmp := cmp_be_eq v FIELD_MODULUS_BE (by rw [hlen, modulus_valid.1]) hv
      modulus_valid.2
    rw [show reduceAux (fuel + 1) v =
        (if cmp_be v FIELD_MODULUS_BE = Ordering.lt then v
         else reduceAux fuel (sub_assign_be v FIELD_MODULUS_BE)) from rfl]
    by_cases hlt : beNat v < beNat FIELD_MODULUS_BE
    · rw [if_pos (by rw [hcmp]; exact Nat.compare_eq_lt.mpr hlt)]
      exact ⟨hlen, hv, (Nat.mod_eq_of_lt hlt).symm, fun _ => rfl⟩
    · rw [if_neg (by rw [hcmp]; intro hc; exact hlt (Nat.compare_eq_lt.mp hc))]
      push_neg at hlt
      obtain ⟨hslen, hsvalid, hsval⟩ :=
        sub_assign_be_spec v FIELD_MODULUS_BE (by rw [hlen, modulus_valid.1]) hv
          modulus_valid.2 hlt
      have hfuel2 : beNat (sub_assign_be v FIELD_MODULUS_BE) <
          fuel * beNat FIELD_MODULUS_BE + beNat FIELD_MODULUS_BE := by
        rw [hsval]
        rw [beNat_modulus] at hfuel hlt ⊢
        omega
      obtain ⟨r1, r2, r3, r4⟩ :=
        ih (sub_assign_be v FIELD_MODULUS_BE) (by rw [hslen, hlen]) hsvalid hfuel2
      refine ⟨r1, r2, ?_, fun hcon => absurd hcon (by omega)⟩
      rw [r3, hsval]
      exact (Nat.mod_eq_sub_mod hlt).symm

/-- C6: public-input normalization is true modular reduction — for a 32-byte
big-endian value the loop of repeated subtractions returns exactly
`v mod p` for the stated field modulus `p`; values already below `p` are
returned unchanged, and the output is always below `p` (and stays a 32-byte
string). -/
theorem claim_C6_reduce_mod (v : List Nat) (hlen : v.length = 32)
    (hv : ∀ x ∈ v, x < 256) :
    beNat FIELD_MODULUS_BE =
      21888242871839275222246405745257275088696311157297823662689037894645226208583 ∧
    beNat (reduce_mod_order_be v) = beNat v % beNat FIELD_MODULUS_BE ∧
    beNat (reduce_mod_order_be v) < beNat FIELD_MODULUS_BE ∧
    (beNat v < beNat FIELD_MODULUS_BE → reduce_mod_order_be v = v) ∧
    (reduce_mod_order_be v).length = 32 ∧
    (∀ x ∈ reduce_mod_order_be v, x < 256) := by
  have hfuel : beNat v <
      (beNat v + 1) * beNat FIELD_MODULUS_BE + beNat FIELD_MODULUS_BE := by
    rw [beNat_modulus]
    omega
  obtain ⟨r1, r2, r3, r4⟩ := reduceAux_spec (beNat v + 1) v hlen hv hfuel
  have hmod : beNat v % beNat FIELD_MODULUS_BE < beNat FIELD_MODULUS_BE :=
    Nat.mod_lt _ (by rw [beNat_modulus]; omega)
  rw [show reduce_mod_order_be v = reduceAux (beNat v + 1) v from rfl]
  exact ⟨beNat_modulus, r3, by rw [r3]; exact hmod, r4, r1, r2⟩

/-- Witness for C6 at the all-zero input. -/
theorem claim_C6_reduce_mod_witness :
    (List.replicate 32 0).length = 32 ∧
    (beNat FIELD_MODULUS_BE =
      21888242871839275222246405745257275088696311157297823662689037894645226208583 ∧
    beNat (reduce_mod_order_be (List.replicate 32 0)) =
      beNat (List.replicate 32 0) % beNat FIELD_MODULUS_BE ∧
    beNat (reduce_mod_order_be (List.replicate 32 0)) < beNat FIELD_MODULUS_BE ∧
    (beNat (List.replicate 32 0) < beNat FIELD_MODULUS_BE →
      reduce_mod_order_be (List.replicate 32 0) = List.replicate 32 0) ∧
    (reduce_mod_order_be (List.replicate 32 0)).length = 32 ∧
    (∀ x ∈ reduce_mod_order_be (List.replicate 32 0), x < 256)) :=
  ⟨by decide, claim_C6_reduce_mod (List.replicate 32 0) (by decide) (by decide)⟩

/-- Full specification of `negate_coordinate` on a valid reduced 32-byte
coordinate: zero stays zero, otherwise the value becomes `p - c`; the result
is again a valid reduced 32-byte coordinate, and negation is an involution. -/
theorem negate_coordinate_spec (c : List Nat) (hl : c.length = 32)
    (hv : ∀ x ∈ c, x < 256) (hlt : beNat c < beNat FIELD_MODULUS_BE) :
    (negate_coordinate c).length = 32 ∧
    (∀ x ∈ negate_coordinate c, x < 256) ∧
    (beNat c = 0 → negate_coordinate c = List.replicate 32 0) ∧
    (beNat c ≠ 0 → beNat (negate_coordinate c) =
      beNat FIELD_MODULUS_BE - beNat c) ∧
    beNat (negate_coordinate c) < beNat FIELD_MODULUS_BE ∧
    negate_coordinate (negate_coordinate c) = c := by
  by_cases hz : is_zero' c = true
  · have hc0 : beNat c = 0 := (is_zero'_iff c).mp hz
    have hceq : c = List.replicate 32 0 :=
      List.eq_replicate_iff.mpr ⟨hl, (beNat_eq_zero_iff c).mp hc0⟩
    have hneg : negate_coordinate c = List.replicate 32 0 := by
      rw [negate_coordinate, if_pos hz]
    rw [hneg]
    refine ⟨List.length_replicate 32 0, ?_, fun _ => rfl, fun hne => absurd hc0 hne,
      ?_, ?_⟩
    · intro x hx
      rw [List.eq_of_mem_replicate hx]
      omega
    · have h0 : beNat (List.replicate 32 (0 : Nat)) = 0 := by decide
      rw [h0, beNat_modulus]
      omega
    · have hzz : is_zero' (List.replicate 32 (0 : Nat)) = true := by decide
      rw [negate_coordinate, if_pos hzz, hceq]
  · have hc0 : beNat c ≠ 0 := fun h => hz ((is_zero'_iff c).mpr h)
    have hneg : negate_coordinate c = sub_assign_be FIELD_MODULUS_BE c := by
      rw [negate_coordinate, if_neg hz]
    obtain ⟨hslen, hsvalid, hsval⟩ := sub_assign_be_spec FIELD_MODULUS_BE c
      (by rw [modulus_valid.1, hl]) modulus_valid.2 hv (Nat.le_of_lt hlt)
    have hpos : 0 < beNat (sub_assign_be FIELD_MODULUS_BE c) := by
      rw [hsval]
      omega
    rw [hneg]
    refine ⟨by rw [hslen, modulus_valid.1], hsvalid, fun h => absurd h hc0,
      fun _ => hsval, by rw [hsval]; omega, ?_⟩
    have hz2 : ¬ is_zero' (sub_assign_be FIELD_MODULUS_BE c) = true := by
      intro h
      rw [is_zero'_iff] at h
      omega
    rw [negate_coordinate, if_neg hz2]
    obtain ⟨h2len, h2valid, h2val⟩ := sub_assign_be_spec FIELD_MODULUS_BE
      (sub_assign_be FIELD_MODULUS_BE c)
      (by rw [modulus_valid.1, hslen, modulus_valid.1]) modulus_valid.2 hsvalid
      (by rw [hsval]; omega)
    apply beNat_inj _ _ (by rw [h2len, modulus_valid.1, hl]) h2valid hv
    rw [h2val, hsval]
    omega

/-- Slices of a `64 ++ 32 ++ 32` byte concatenation. -/
theorem append3_slices {α : Type} (A n1 n2 : List α) (hA : A.length = 64)
    (h1 : n1.length = 32) (h2 : n2.length = 32) :
    (A ++ n1 ++ n2).take 64 = A ∧
    ((A ++ n1 ++ n2).drop 64).take 32 = n1 ∧
    (A ++ n1 ++ n2).drop 96 = n2 ∧
    (A ++ n1 ++ n2).length = 128 := by
  refine ⟨?_, ?_, ?_, by simp [hA, h1, h2]⟩
  · rw [List.append_assoc, List.take_left' hA]
  · rw [List.append_assoc, List.drop_left' hA, List.take_left' h1]
  · rw [List.drop_left' (by simp [hA, h1])]

/-- C8: on a 128-byte G2 encoding with both y components below the modulus,
`negate_g2` keeps the x bytes (0..64), sends each y component to zero when it
is zero and to `p - c` otherwise, keeps the output components below the
modulus (and the output 128 bytes long), and is an involution. -/
theorem claim_C8_negate_g2 (pt : List Nat) (hl : pt.length = 128)
    (hv : ∀ x ∈ pt, x < 256)
    (hy1 : beNat ((pt.drop 64).take 32) < beNat FIELD_MODULUS_BE)
    (hy2 : beNat (pt.drop 96) < beNat FIELD_MODULUS_BE) :
    (negate_g2 pt).take 64 = pt.take 64 ∧
    ((negate_g2 pt).drop 64).take 32 = negate_coordinate ((pt.drop 64).take 32) ∧
    (negate_g2 pt).drop 96 = negate_coordinate (pt.drop 96) ∧
    (beNat ((pt.drop 64).take 32) = 0 →
      negate_coordinate ((pt.drop 64).take 32) = List.replicate 32 0) ∧
    (beNat ((pt.drop 64).take 32) ≠ 0 →
      beNat (negate_coordinate ((pt.drop 64).take 32)) =
        beNat FIELD_MODULUS_BE - beNat ((pt.drop 64).take 32)) ∧
    (beNat (pt.drop 96) = 0 →
      negate_coordinate (pt.drop 96) = List.replicate 32 0) ∧
    (beNat (pt.drop 96) ≠ 0 →
      beNat (negate_coordinate (pt.drop 96)) =
        beNat FIELD_MODULUS_BE - beNat (pt.drop 96)) ∧
    beNat (negate_coordinate ((pt.drop 64).take 32)) < beNat FIELD_MODULUS_BE ∧
    beNat (negate_coordinate (pt.drop 96)) < beNat FIELD_MODULUS_BE ∧
    (negate_g2 pt).length = 128 ∧
    negate_g2 (negate_g2 pt) = pt := by
  have hy1len : ((pt.drop 64).take 32).length = 32 := by
    simp [List.length_take, List.length_drop, hl]
  have hy2len : (pt.drop 96).length = 32 := by
    simp [List.length_drop, hl]
  have hy1v : ∀ x ∈ (pt.drop 64).take 32, x < 256 :=
    fun x hx => hv x (List.drop_subset 64 pt (List.take_subset 32 _ hx))
  have hy2v : ∀ x ∈ pt.drop 96, x < 256 :=
    fun x hx => hv x (List.drop_subset 96 pt hx)
  obtain ⟨s1len, s1v, s1z, s1nz, s1lt, s1inv⟩ :=
    negate_coordinate_spec _ hy1len hy1v hy1
  obtain ⟨s2len, s2v, s2z, s2nz, s2lt, s2inv⟩ :=
    negate_coordinate_spec _ hy2len hy2v hy2
  have hAlen : (pt.take 64).length = 64 := by
    simp [List.length_take, hl]
  obtain ⟨c1, c2, c3, c4⟩ := append3_slices (pt.take 64)
    (negate_coordinate ((pt.drop 64).take 32)) (negate_coordinate (pt.drop 96))
    hAlen s1len s2len
  have hng : negate_g2 pt = pt.take 64 ++ negate_coordinate ((pt.drop 64).take 32)
      ++ negate_coordinate (pt.drop 96) := rfl
  refine ⟨by rw [hng]; exact c1, by rw [hng]; exact c2, by rw [hng]; exact c3,
    s1z, s1nz, s2z, s2nz, s1lt, s2lt, by rw [hng]; exact c4, ?_⟩
  have hng2 : negate_g2 (negate_g2 pt) =
      (negate_g2 pt).take 64
        ++ negate_coordinate (((negate_g2 pt).drop 64).take 32)
        ++ negate_coordinate ((negate_g2 pt).drop 96) := rfl
  rw [hng2, hng, c1, c2, c3, s1inv, s2inv]
  rw [List.append_assoc]
  rw [show (pt.drop 64).take 32 ++ pt.drop 96
      = (pt.drop 64).take 32 ++ (pt.drop 64).drop 32 from by
    rw [List.drop_drop]]
  rw [List.take_append_drop, List.take_append_drop]

set_option maxRecDepth 8000 in
/-- Witness for C8 at the all-zero 128-byte encoding. -/
theorem claim_C8_negate_g2_witness :
    (List.replicate 128 0).length = 128 ∧
    ((negate_g2 (List.replicate 128 0)).take 64 = (List.replicate 128 0).take 64 ∧
    ((negate_g2 (List.replicate 128 0)).drop 64).take 32 =
      negate_coordinate (((List.replicate 128 0).drop 64).take 32) ∧
    (negate_g2 (List.replicate 128 0)).drop 96 =
      negate_coordinate ((List.replicate 128 0).drop 96) ∧
    (beNat (((List.replicate 128 0).drop 64).take 32) = 0 →
      negate_coordinate (((List.replicate 128 0).drop 64).take 32) =
        List.replicate 32 0) ∧
    (beNat (((List.replicate 128 0).drop 64).take 32) ≠ 0 →
      beNat (negate_coordinate (((List.replicate 128 0).drop 64).take 32)) =
        beNat FIELD_MODULUS_BE - beNat (((List.replicate 128 0).drop 64).take 32)) ∧
    (beNat ((List.replicate 128 0).drop 96) = 0 →
      negate_coordinate ((List.replicate 128 0).drop 96) = List.replicate 32 0) ∧
    (beNat ((List.replicate 128 0).drop 96) ≠ 0 →
      beNat (negate_coordinate ((List.replicate 128 0).drop 96)) =
        beNat FIELD_MODULUS_BE - beNat ((List.replicate 128 0).drop 96)) ∧
    beNat (negate_coordinate (((List.replicate 128 0).drop 64).take 32)) <
      beNat FIELD_MODULUS_BE ∧
    beNat (negate_coordinate ((List.replicate 128 0).drop 96)) <
      beNat FIELD_MODULUS_BE ∧
    (negate_g2 (List.replicate 128 0)).length = 128 ∧
    negate_g2 (negate_g2 (List.replicate 128 0)) = List.replicate 128 0) :=
  ⟨by decide,
   claim_C8_negate_g2 (List.replicate 128 0) (by decide) (by decide)
     (by decide) (by decide)⟩

/-! ### Verifier front-end -/

/-- C3: the error checks of `verify_groth16` fire in order — empty key blob
`VerifierMissing`; then undecodable blob or decoded key with empty `ic`
`InvalidVerifierKey`; then `ic` length mismatch with the public inputs
`InvalidProof`; then a proof blob of length other than 256 `InvalidProof` —
so the first failing condition determines the error. -/
theorem claim_C3_verify_error_order (mulB addB pairB : Backend)
    (v : VerifierAccount) (proof_bytes : List Nat) (inputs : List (List Nat)) :
    (v.verifying_key = [] →
      verify_groth16 mulB addB pairB v proof_bytes inputs =
        Except.error ShieldError.VerifierMissing) ∧
    (v.verifying_key ≠ [] → try_from_slice v.verifying_key = none →
      verify_groth16 mulB addB pairB v proof_bytes inputs =
        Except.error ShieldError.InvalidVerifierKey) ∧
    (∀ key, v.verifying_key ≠ [] → try_from_slice v.verifying_key = some key →
      key.ic = [] →
      verify_groth16 mulB addB pairB v proof_bytes inputs =
        Except.error ShieldError.InvalidVerifierKey) ∧
    (∀ key, v.verifying_key ≠ [] → try_from_slice v.verifying_key = some key →
      key.ic ≠ [] → key.ic.length ≠ inputs.length + 1 →
      verify_groth16 mulB addB pairB v proof_bytes inputs =
        Except.error ShieldError.InvalidProof) ∧
    (∀ key, v.verifying_key ≠ [] → try_from_slice v.verifying_key = some key →
      key.ic ≠ [] → key.ic.length = inputs.length + 1 → proof_bytes.length ≠ 256 →
      verify_groth16 mulB addB pairB v proof_bytes inputs =
        Except.error ShieldError.InvalidProof) := by
  refine ⟨fun h => ?_, fun h hnone => ?_, fun key h hsome hic => ?_,
    fun key h hsome hic hlen => ?_, fun key h hsome hic hlen hplen => ?_⟩
  · rw [verify_groth16, if_pos h]
  · simp [verify_groth16, load_verifier_key, h, hnone]
  · simp [verify_groth16, load_verifier_key, h, hsome, hic]
  · simp [verify_groth16, load_verifier_key, h, hsome, hic, hlen]
  · simp [verify_groth16, load_verifier_key, h, hsome, hic, hlen,
      Groth16Proof.from_bytes, hplen]

set_option maxRecDepth 8000 in
/-- Witness for C3: each of the five ordered failure branches at a concrete
input (failing backends, varying key blob and lengths). -/
theorem claim_C3_verify_error_order_witness :
    verify_groth16 (fun _ => Except.error ()) (fun _ => Except.error ())
        (fun _ => Except.error ()) ⟨[]⟩ [] [] =
      Except.error ShieldError.VerifierMissing ∧
    verify_groth16 (fun _ => Except.error ()) (fun _ => Except.error ())
        (fun _ => Except.error ()) ⟨[1]⟩ [] [] =
      Except.error ShieldError.InvalidVerifierKey ∧
    verify_groth16 (fun _ => Except.error ()) (fun _ => Except.error ())
        (fun _ => Except.error ())
        ⟨List.replicate 448 0 ++ [0, 0, 0, 0]⟩ [] [] =
      Except.error ShieldError.InvalidVerifierKey ∧
    verify_groth16 (fun _ => Except.error ()) (fun _ => Except.error ())
        (fun _ => Except.error ())
        ⟨List.replicate 448 0 ++ [1, 0, 0, 0] ++ List.replicate 64 0⟩ [] [[7]] =
      Except.error ShieldError.InvalidProof ∧
    verify_groth16 (fun _ => Except.error ()) (fun _ => Except.error ())
        (fun _ => Except.error ())
        ⟨List.replicate 448 0 ++ [1, 0, 0, 0] ++ List.replicate 64 0⟩ [] [] =
      Except.error ShieldError.InvalidProof :=
  ⟨(claim_C3_verify_error_order _ _ _ ⟨[]⟩ [] []).1 rfl,
   (claim_C3_verify_error_order _ _ _ ⟨[1]⟩ [] []).2.1 (by decide) (by decide),
   (claim_C3_verify_error_order _ _ _ ⟨List.replicate 448 0 ++ [0, 0, 0, 0]⟩ [] []).2.2.1
     ⟨List.replicate 64 0, List.replicate 128 0, List.replicate 128 0,
      List.replicate 128 0, []⟩
     (by decide) (by decide) rfl,
   (claim_C3_verify_error_order _ _ _
       ⟨List.replicate 448 0 ++ [1, 0, 0, 0] ++ List.replicate 64 0⟩ [] [[7]]).2.2.2.1
     ⟨List.replicate 64 0, List.replicate 128 0, List.replicate 128 0,
      List.replicate 128 0, [List.replicate 64 0]⟩
     (by decide) (by decide) (by decide) (by decide),
   (claim_C3_verify_error_order _ _ _
       ⟨List.replicate 448 0 ++ [1, 0, 0, 0] ++ List.replicate 64 0⟩ [] []).2.2.2.2
     ⟨List.replicate 64 0, List.replicate 128 0, List.replicate 128 0,
      List.replicate 128 0, [List.replicate 64 0]⟩
     (by decide) (by decide) (by decide) (by decide) (by decide)⟩

/-- `g1_scalar_mul` with a total 64-byte backend: one recorded multiplication
call on `point ++ scalar` and the masked backend output. -/
theorem g1_scalar_mul_total (mulf : List Nat → List Nat)
    (hm : ∀ x, (mulf x).length = 64) (point scalar : List Nat) :
    g1_scalar_mul (fun x => Except.ok (mulf x)) point scalar =
      (Except.ok (maskG1 (mulf (point ++ scalar))),
       [BackendCall.mul (point ++ scalar)]) := by
  simp [g1_scalar_mul, read_g1_be, hm]

/-- `g1_add` with a total 64-byte backend: one recorded addition call on
`p ++ q` and the masked backend output. -/
theorem g1_add_total (addf : List Nat → List Nat)
    (ha : ∀ x, (addf x).length = 64) (p q : List Nat) :
    g1_add (fun x => Except.ok (addf x)) p q =
      (Except.ok (maskG1 (addf (p ++ q))), [BackendCall.add (p ++ q)]) := by
  simp [g1_add, read_g1_be, ha]

/-- A skipped term makes no backend call and leaves the loop unchanged. -/
theorem accLoop_cons_skip (mulB addB : Backend) (acc sc pt : List Nat)
    (rest : List (List Nat × List Nat))
    (hskip : (is_zero' sc || is_zero' pt) = true) :
    accLoop mulB addB acc ((sc, pt) :: rest) = accLoop mulB addB acc rest := by
  simp only [accLoop]
  rw [if_pos hskip]

/-- A non-skipped term under total backends contributes exactly one
multiplication and one addition call, then continues with the new
accumulator. -/
theorem accLoop_cons_nonskip (mulf addf : List Nat → List Nat)
    (hm : ∀ x, (mulf x).length = 64) (ha : ∀ x, (addf x).length = 64)
    (acc sc pt : List Nat) (rest : List (List Nat × List Nat))
    (hskip : ¬ (is_zero' sc || is_zero' pt) = true) :
    accLoop (fun x => Except.ok (mulf x)) (fun x => Except.ok (addf x)) acc
        ((sc, pt) :: rest) =
      ((accLoop (fun x => Except.ok (mulf x)) (fun x => Except.ok (addf x))
          (maskG1 (addf (acc ++ maskG1 (mulf (pt ++ sc))))) rest).1,
       BackendCall.mul (pt ++ sc)
         :: BackendCall.add (acc ++ maskG1 (mulf (pt ++ sc)))
         :: (accLoop (fun x => Except.ok (mulf x)) (fun x => Except.ok (addf x))
              (maskG1 (addf (acc ++ maskG1 (mulf (pt ++ sc))))) rest).2) := by
  simp only [accLoop]
  rw [if_neg hskip]
  simp only [g1_scalar_mul_total mulf hm, g1_add_total addf ha]
  simp

/-- `filterMap` of the multiplication projector over a multiplication call. -/
theorem filterMap_mul_cons_mul (i : List Nat) (l : List BackendCall) :
    (BackendCall.mul i :: l).filterMap mulCallInput =
      i :: l.filterMap mulCallInput := rfl

/-- `filterMap` of the multiplication projector over an addition call. -/
theorem filterMap_mul_cons_add (i : List Nat) (l : List BackendCall) :
    (BackendCall.add i :: l).filterMap mulCallInput = l.filterMap mulCallInput := rfl

/-- `filterMap` of the addition projector over a multiplication call. -/
theorem filterMap_add_cons_mul (i : List Nat) (l : List BackendCall) :
    (BackendCall.mul i :: l).filterMap addCallInput = l.filterMap addCallInput := rfl

/-- `filterMap` of the addition projector over an addition call. -/
theorem filterMap_add_cons_add (i : List Nat) (l : List BackendCall) :
    (BackendCall.add i :: l).filterMap addCallInput =
      i :: l.filterMap addCallInput := rfl

/-- Behaviour of the accumulator loop under total backends: the result is the
fold of masked multiply-adds over exactly the non-skipped pairs; the recorded
multiplication calls are exactly the non-skipped `point ++ scalar` buffers in
order; additions and multiplications are made in equal number; and when every
pair is skipped the loop returns the accumulator untouched with no calls. -/
theorem accLoop_spec (mulf addf : List Nat → List Nat)
    (hm : ∀ x, (mulf x).length = 64) (ha : ∀ x, (addf x).length = 64) :
    ∀ (ps : List (List Nat × List Nat)) (acc : List Nat),
      (accLoop (fun x => Except.ok (mulf x)) (fun x => Except.ok (addf x)) acc ps).1 =
        Except.ok ((ps.filter (fun sp => !(is_zero' sp.1 || is_zero' sp.2))).foldl
          (fun a sp => maskG1 (addf (a ++ maskG1 (mulf (sp.2 ++ sp.1))))) acc) ∧
      ((accLoop (fun x => Except.ok (mulf x)) (fun x => Except.ok (addf x))
          acc ps).2.filterMap mulCallInput =
        (ps.filter (fun sp => !(is_zero' sp.1 || is_zero' sp.2))).map
          (fun sp => sp.2 ++ sp.1)) ∧
      ((accLoop (fun x => Except.ok (mulf x)) (fun x => Except.ok (addf x))
          acc ps).2.filterMap addCallInput).length =
        ((accLoop (fun x => Except.ok (mulf x)) (fun x => Except.ok (addf x))
          acc ps).2.filterMap mulCallInput).length ∧
      ((∀ sp ∈ ps, is_zero' sp.1 = true ∨ is_zero' sp.2 = true) →
        accLoop (fun x => Except.ok (mulf x)) (fun x => Except.ok (addf x)) acc ps =
          (Except.ok acc, [])) := by
  intro ps
  induction ps with
  | nil =>
    intro acc
    exact ⟨rfl, rfl, rfl, fun _ => rfl⟩
  | cons sp rest ih =>
    intro acc
    obtain ⟨sc, pt⟩ := sp
    by_cases hskip : (is_zero' sc || is_zero' pt) = true
    · rw [accLoop_cons_skip _ _ acc sc pt rest hskip]
      obtain ⟨i1, i2, i3, i4⟩ := ih acc
      have hcond : (!(is_zero' sc || is_zero' pt)) = false := by rw [hskip]; rfl
      have hfilter : ((sc, pt) :: rest).filter
          (fun sp => !(is_zero' sp.1 || is_zero' sp.2)) =
          rest.filter (fun sp => !(is_zero' sp.1 || is_zero' sp.2)) := by
        rw [List.filter_cons]
        simp [hcond]
      refine ⟨by rw [hfilter]; exact i1, by rw [hfilter]; exact i2, i3, fun hall => ?_⟩
      rw [i4 (fun x hx => hall x (List.mem_cons_of_mem _ hx))]
    · rw [accLoop_cons_nonskip mulf addf hm ha acc sc pt rest hskip]
      obtain ⟨i1, i2, i3, i4⟩ := ih (maskG1 (addf (acc ++ maskG1 (mulf (pt ++ sc)))))
      have hskipf : (is_zero' sc || is_zero' pt) = false := by
        rcases Bool.eq_false_or_eq_true (is_zero' sc || is_zero' pt) with h | h
        · exact absurd h hskip
        · exact h
      have hcond : (!(is_zero' sc || is_zero' pt)) = true := by rw [hskipf]; rfl
      have hfilter : ((sc, pt) :: rest).filter
          (fun sp => !(is_zero' sp.1 || is_zero' sp.2)) =
          (sc, pt) :: rest.filter (fun sp => !(is_zero' sp.1 || is_zero' sp.2)) := by
        rw [List.filter_cons]
        simp [hcond]
      refine ⟨?_, ?_, ?_, fun hall => ?_⟩
      · rw [hfilter, List.foldl_cons]
        exact i1
      · rw [hfilter, filterMap_mul_cons_mul, filterMap_mul_cons_add,
          List.map_cons, i2]
      · rw [filterMap_add_cons_mul, filterMap_add_cons_add,
          filterMap_mul_cons_mul, filterMap_mul_cons_add,
          List.length_cons, List.length_cons, i3]
      · rcases hall (sc, pt) (by simp) with h1 | h1
        · rw [show is_zero' (sc, pt).1 = is_zero' sc from rfl] at h1
          rw [h1] at hskipf
          simp at hskipf
        · rw [show is_zero' (sc, pt).2 = is_zero' pt from rfl] at h1
          rw [h1] at hskipf
          simp at hskipf

/-- C7: `accumulate_ic` starts from `ic[0]` and, under total backends, folds
the backend multiply (`ic[i+1] ++ scalar_i` buffer) and add over exactly the
pairs whose scalar and point are both non-zero: the multiplication calls made
are exactly those of the non-skipped pairs in order, additions match them in
number, and when every pair has a zero scalar or zero point the result is
`ic[0]` with no backend call at all. -/
theorem claim_C7_accumulate_ic (mulf addf : List Nat → List Nat)
    (hm : ∀ x, (mulf x).length = 64) (ha : ∀ x, (addf x).length = 64)
    (ic scalars : List (List Nat)) :
    ((accumulate_ic (fun x => Except.ok (mulf x)) (fun x => Except.ok (addf x))
        ic scalars).1 =
      Except.ok (((scalars.zip (ic.drop 1)).filter
          (fun sp => !(is_zero' sp.1 || is_zero' sp.2))).foldl
        (fun a sp => maskG1 (addf (a ++ maskG1 (mulf (sp.2 ++ sp.1)))))
        (ic.getD 0 []))) ∧
    ((accumulate_ic (fun x => Except.ok (mulf x)) (fun x => Except.ok (addf x))
        ic scalars).2.filterMap mulCallInput =
      ((scalars.zip (ic.drop 1)).filter
          (fun sp => !(is_zero' sp.1 || is_zero' sp.2))).map
        (fun sp => sp.2 ++ sp.1)) ∧
    ((accumulate_ic (fun x => Except.ok (mulf x)) (fun x => Except.ok (addf x))
        ic scalars).2.filterMap addCallInput).length =
      ((accumulate_ic (fun x => Except.ok (mulf x)) (fun x => Except.ok (addf x))
        ic scalars).2.filterMap mulCallInput).length ∧
    ((∀ sp ∈ scalars.zip (ic.drop 1),
        is_zero' sp.1 = true ∨ is_zero' sp.2 = true) →
      accumulate_ic (fun x => Except.ok (mulf x)) (fun x => Except.ok (addf x))
          ic scalars =
        (Except.ok (ic.getD 0 []), [])) := by
  rw [show accumulate_ic (fun x => Except.ok (mulf x)) (fun x => Except.ok (addf x))
      ic scalars =
      accLoop (fun x => Except.ok (mulf x)) (fun x => Except.ok (addf x))
        (ic.getD 0 []) (scalars.zip (ic.drop 1)) from rfl]
  exact accLoop_spec mulf addf hm ha (scalars.zip (ic.drop 1)) (ic.getD 0 [])

/-- Witness for C7: a singleton `ic` and no public inputs give `ic[0]` back
with an empty call trace. -/
theorem claim_C7_accumulate_ic_witness :
    (accumulate_ic (fun x => Except.ok ((fun _ : List Nat => List.replicate 64 0) x))
        (fun x => Except.ok ((fun _ : List Nat => List.replicate 64 0) x)) [[1]] []).1 =
      Except.ok (((([] : List (List Nat)).zip (([[1]] : List (List Nat)).drop 1)).filter
          (fun sp => !(is_zero' sp.1 || is_zero' sp.2))).foldl
        (fun a sp => maskG1 ((fun _ : List Nat => List.replicate 64 0)
          (a ++ maskG1 ((fun _ : List Nat => List.replicate 64 0) (sp.2 ++ sp.1)))))
        (([[1]] : List (List Nat)).getD 0 [])) :=
  (claim_C7_accumulate_ic (fun _ => List.replicate 64 0)
    (fun _ => List.replicate 64 0) (fun _ => rfl) (fun _ => rfl) [[1]] []).1

end NocturaShield
